import Mathlib

/-!
Shallow embedding of the price/stock synchronization pipeline of
`seller.py` (Ozon channel) and `market.py` (Yandex channel).

Only the pure data transformations the claims are about are embedded:
the quantity-bucketing and two-pass reconciliation of `create_stocks`,
the price reconciliation of `create_prices`, the price normalization of
`price_conversion`, the chunking generator `divide`, and the pagination
loops of the two `get_offer_ids` functions.  HTTP transport, credential
loading and spreadsheet parsing are plumbing outside the claims.

Modelling conventions:
* mutation of the `offer_ids` Python list is made explicit state
  passing: each loop returns the list's final value next to its result;
* Python functions that can raise (`int(...)` on a bad string or on
  `None`) return `Option`;
* an inventory row (`watch`) is modelled by the three fields the code
  reads: `Код` (read only through `str(...)`, hence a `String`),
  `Количество` (read both raw and through `str(...)`, hence an
  `Option String`; `str(None) = "None"`), and `Цена` (a `String`);
* Python `int(s)` is modelled for an optionally signed decimal string
  with surrounding whitespace; PEP-515 underscores and non-ASCII digits
  are not modelled (no claim touches them).
-/

/-- One inventory row as read by the code: `Код` via `str(...)`,
`Количество` raw (possibly absent), `Цена` raw. -/
structure Watch where
  kod : String
  kolichestvo : Option String
  tsena : String
deriving DecidableEq, Repr

/-- Python `str` applied to an optional string (`str(None) = "None"`). -/
def strOfOpt : Option String → String
  | some s => s
  | none => "None"

/-- Strip leading and trailing whitespace, as Python `int` does before
parsing (`int(" 7 ") = 7`). -/
def stripWs (cs : List Char) : List Char :=
  ((cs.dropWhile Char.isWhitespace).reverse.dropWhile Char.isWhitespace).reverse

/-- The numeric value of a run of ASCII digits. -/
def digitsVal (cs : List Char) : Nat :=
  cs.foldl (fun a c => 10 * a + (c.toNat - 48)) 0

/-- A nonempty run of ASCII digits, the body of a Python integer
literal. -/
def allDigits (cs : List Char) : Bool :=
  !cs.isEmpty && cs.all Char.isDigit

/-- Python `int(s)` on a string: optional surrounding whitespace, an
optional sign, then a nonempty run of ASCII digits; anything else
raises (`none`).  PEP-515 underscores and non-ASCII digits are not
modelled (no claim touches them). -/
def pyInt (s : String) : Option Int :=
  match stripWs s.toList with
  | '-' :: core => if allDigits core then some (-(digitsVal core : Int)) else none
  | '+' :: core => if allDigits core then some (digitsVal core : Int) else none
  | core => if allDigits core then some (digitsVal core : Int) else none

/-- The quantity-bucketing policy inside `create_stocks`
(`seller.py` lines 215–221, identical in `market.py` 188–194):
`count = str(watch.get("Количество"))`; `">10" ↦ 100`, `"1" ↦ 0`,
otherwise `int(watch.get("Количество"))` which raises on a
non-integer or absent value. -/
def bucketQty (w : Watch) : Option Int :=
  let count := strOfOpt w.kolichestvo
  if count = ">10" then some 100
  else if count = "1" then some 0
  else
    match w.kolichestvo with
    | some s => pyInt s
    | none => none

/-- A stock update record (`{"offer_id": ..., "stock": ...}` in
`seller.py`; `market.py` adds a warehouse id and timestamp around the
same `sku`/`count` pair, which carry no logic). -/
structure Stock where
  offer_id : String
  stock : Int
deriving DecidableEq, Repr

/-- The first loop of `create_stocks` (`seller.py` 213–223): for each
inventory row whose `Код` is in `offer_ids`, bucket the quantity,
append a stock record and remove the id from `offer_ids`
(`list.remove` deletes the first occurrence, as `List.erase` does).
Returns the matched records and the final state of `offer_ids`. -/
def stocksLoop : List Watch → List String → Option (List Stock × List String)
  | [], ids => some ([], ids)
  | w :: ws, ids =>
    if w.kod ∈ ids then
      match bucketQty w with
      | none => none
      | some q =>
        match stocksLoop ws (ids.erase w.kod) with
        | none => none
        | some (m, rem) => some (⟨w.kod, q⟩ :: m, rem)
    else stocksLoop ws ids

/-- `create_stocks` (`seller.py` 187–227): the match pass above, then a
default pass appending a zero-stock record for every id left in
`offer_ids`. -/
def create_stocks (watch_remnants : List Watch) (offer_ids : List String) :
    Option (List Stock) :=
  match stocksLoop watch_remnants offer_ids with
  | none => none
  | some (m, rem) => some (m ++ rem.map (fun i => ⟨i, 0⟩))

/-- `price_conversion` (`seller.py` 265–284):
`re.sub("[^0-9]", "", price.split(".")[0])` — keep the part before the
first `"."` (the whole string when there is none), then keep only the
ASCII digits. -/
def price_conversion (price : String) : String :=
  String.mk ((price.toList.takeWhile (fun c => c != '.')).filter Char.isDigit)

/-- A price update record as built by `create_prices` in `seller.py`
(the constant fields `auto_action_enabled`, `currency_code`,
`old_price` carry no logic and are omitted; `market.py` wraps the same
id and `int(price_conversion ...)` value). -/
structure Price where
  offer_id : String
  price : String
deriving DecidableEq, Repr

/-- The record appended for one matched row of `create_prices`. -/
def priceOf (w : Watch) : Price :=
  ⟨w.kod, price_conversion w.tsena⟩

/-- The loop of `create_prices` (`seller.py` 251–261): for each row
whose `Код` is in `offer_ids`, append a price record.  The loop only
reads `offer_ids`; the returned second component is the list's final
state, made explicit to state the frame property. -/
def pricesLoop : List Watch → List String → List Price × List String
  | [], ids => ([], ids)
  | w :: ws, ids =>
    if w.kod ∈ ids then
      let r := pricesLoop ws ids
      (priceOf w :: r.1, r.2)
    else pricesLoop ws ids

/-- `create_prices` (`seller.py` 230–262). -/
def create_prices (watch_remnants : List Watch) (offer_ids : List String) :
    List Price :=
  (pricesLoop watch_remnants offer_ids).1

/-- `divide` (`seller.py` 287–307): `for i in range(0, len(lst), n):
yield lst[i : i + n]`.  For `n = 0` Python raises `ValueError` from
`range`; the claims only concern `n > 0`, and the model returns `[]`
in that unreachable case. -/
def divide (lst : List α) (n : Nat) : List (List α) :=
  if lst.isEmpty ∨ n = 0 then []
  else lst.take n :: divide (lst.drop n) n
termination_by lst.length
decreasing_by
  simp only [List.isEmpty_iff, not_or] at *
  have hl : 0 < lst.length := List.length_pos.mpr (by tauto)
  have hn : 0 < n := Nat.pos_of_ne_zero (by tauto)
  simpa using Nat.sub_lt hl hn

/-- One Ozon catalog page as consumed by `get_offer_ids`
(`seller.py` 72–84): its items (reduced to their `offer_id` strings,
the only field read) and the `total` reported alongside. -/
structure OzonPage where
  items : List String
  total : Nat
deriving DecidableEq, Repr

/-- The pagination loop of `seller.get_offer_ids`: extend the running
list with the page's items, stop when `total == len(product_list)`.
The abstract server is the list of pages successive requests return;
running out of pages models the loop never breaking (`none`).
Returns the accumulated items and the number of page requests. -/
def ozonLoop : List OzonPage → List String → Option (List String × Nat)
  | [], _ => none
  | p :: rest, acc =>
    let acc2 := acc ++ p.items
    if p.total = acc2.length then some (acc2, 1)
    else
      match ozonLoop rest acc2 with
      | none => none
      | some (l, k) => some (l, k + 1)

/-- `seller.get_offer_ids` over an abstract page sequence: the loop
starts with an empty running list; the final `offer_ids` list is one
entry per accumulated item (no deduplication in the code). -/
def ozon_get_offer_ids (pages : List OzonPage) : Option (List String × Nat) :=
  ozonLoop pages []

/-- One Yandex catalog page as consumed by `market.get_offer_ids`
(`market.py` 142–153): its entries (reduced to their `shopSku`
strings) and the continuation token (`""` models a missing/falsy
`nextPageToken`). -/
structure MarketPage where
  entries : List String
  nextPageToken : String
deriving DecidableEq, Repr

/-- The pagination loop of `market.get_offer_ids`: extend with the
page's entries, stop when the continuation token is falsy. -/
def marketLoop : List MarketPage → Option (List String × Nat)
  | [] => none
  | p :: rest =>
    if p.nextPageToken = "" then some (p.entries, 1)
    else
      match marketLoop rest with
      | none => none
      | some (l, k) => some (p.entries ++ l, k + 1)

/-- `market.get_offer_ids` over an abstract page sequence. -/
def market_get_offer_ids (pages : List MarketPage) :
    Option (List String × Nat) :=
  marketLoop pages

/-- The quantity an identifier `k` is expected to receive from
reconciliation: the bucketed quantity of the first inventory row whose
`Код` is `k`, or `0` when no row matches. -/
def expectedQty (watch_remnants : List Watch) (k : String) : Option Int :=
  match watch_remnants.find? (fun w => w.kod == k) with
  | some w => bucketQty w
  | none => some 0

example : pyInt "7" = some 7 := by decide
example : pyInt "-1" = some (-1) := by decide
example : pyInt "xyz" = none := by decide
example : bucketQty ⟨"A", some ">10", ""⟩ = some 100 := by decide
example : price_conversion "12.50" = "12" := by decide
example :
    create_stocks [⟨"A", some ">10", "5'990.00 руб."⟩] ["A", "B", "C"] =
      some [⟨"A", 100⟩, ⟨"B", 0⟩, ⟨"C", 0⟩] := by decide
example :
    create_prices [⟨"A", some ">10", "5'990.00 руб."⟩] ["A", "B", "C"] =
      [⟨"A", "5990"⟩] := by decide
example : divide [1, 2, 3, 4, 5] 2 = [[1, 2], [3, 4], [5]] := by
  simp [divide]
example : ozon_get_offer_ids [⟨["X", "X"], 2⟩] = some (["X", "X"], 1) := by
  decide
example : market_get_offer_ids [⟨["Y"], ""⟩] = some (["Y"], 1) := by decide

/-! ## Theorems -/

theorem pricesLoop_snd (R : List Watch) (K : List String) :
    (pricesLoop R K).2 = K := by
  induction R with
  | nil => rfl
  | cons w ws ih =>
    simp only [pricesLoop]
    split
    · simpa using ih
    · exact ih

theorem pricesLoop_fst (R : List Watch) (K : List String) :
    (pricesLoop R K).1 =
      (R.filter (fun w => decide (w.kod ∈ K))).map priceOf := by
  induction R with
  | nil => rfl
  | cons w ws ih =>
    simp only [pricesLoop, List.filter_cons]
    by_cases h : w.kod ∈ K
    · simp [h, ih]
    · simp [h, ih]

/-- C2: end-to-end scenario.  With known identifiers `["A","B","C"]`
and the single inventory row `("A", ">10", "5'990.00 руб.")`,
`create_stocks` yields exactly `A ↦ 100, B ↦ 0, C ↦ 0` in that order
(match pass first, then the default pass in original order), and
`create_prices` on the same identifier list yields the single update
for `"A"` with normalized price `"5990"` (which the Yandex variant
further parses to the integer `5990`). -/
theorem c2_end_to_end :
    create_stocks [⟨"A", some ">10", "5'990.00 руб."⟩] ["A", "B", "C"] =
      some [⟨"A", 100⟩, ⟨"B", 0⟩, ⟨"C", 0⟩] ∧
    create_prices [⟨"A", some ">10", "5'990.00 руб."⟩] ["A", "B", "C"] =
      [⟨"A", "5990"⟩] ∧
    pyInt (price_conversion "5'990.00 руб.") = some 5990 :=
  ⟨by decide, by decide, by decide⟩

/-- C3: the quantity-bucketing policy maps the descriptor `">10"` to
`100`, `"1"` to `0`, and any other descriptor to its integer parse; in
particular `"7" ↦ 7` and `"0" ↦ 0`. -/
theorem c3_quantity_bucketing :
    (∀ (k p s : String), bucketQty ⟨k, some s, p⟩ =
      (if s = ">10" then some 100
       else if s = "1" then some 0
       else pyInt s)) ∧
    bucketQty ⟨"", some ">10", ""⟩ = some 100 ∧
    bucketQty ⟨"", some "1", ""⟩ = some 0 ∧
    bucketQty ⟨"", some "7", ""⟩ = some 7 ∧
    bucketQty ⟨"", some "0", ""⟩ = some 0 :=
  ⟨fun _ _ _ => rfl, by decide, by decide, by decide, by decide⟩

/-- C5: price normalization keeps the part before the first `"."` and
removes every non-digit character: `"5'990.00 руб." ↦ "5990"`,
`"12.50" ↦ "12"`, `"999 руб."` (no separator) `↦ "999"`, and an input
with no digit before the first separator maps to the empty string. -/
theorem c5_price_conversion :
    price_conversion "5'990.00 руб." = "5990" ∧
    price_conversion "12.50" = "12" ∧
    price_conversion "999 руб." = "999" ∧
    ∀ s : String,
      (s.toList.takeWhile (fun c => c != '.')).all (fun c => !c.isDigit) =
        true →
      price_conversion s = "" := by
  refine ⟨by decide, by decide, by decide, fun s hs => ?_⟩
  have h : (s.toList.takeWhile (fun c => c != '.')).filter Char.isDigit = [] := by
    rw [List.filter_eq_nil_iff]
    intro c hc
    have := List.all_eq_true.mp hs c hc
    simpa using this
  simp only [price_conversion, h]

theorem c5_price_conversion_witness : price_conversion ".50" = "" :=
  c5_price_conversion.2.2.2 ".50" (by decide)

/-- C10: `create_prices` never mutates the known-identifier list (the
loop only reads it, so its final state equals its initial state), its
output is exactly one price record per inventory row whose identifier
is in the list (so two rows with the same matched identifier each
produce their own update), and its length is the count of matching
rows. -/
theorem c10_prices_frame :
    (∀ (R : List Watch) (K : List String), (pricesLoop R K).2 = K) ∧
    (∀ (R : List Watch) (K : List String),
      create_prices R K =
        (R.filter (fun w => decide (w.kod ∈ K))).map priceOf) ∧
    (∀ (R : List Watch) (K : List String),
      (create_prices R K).length = R.countP (fun w => decide (w.kod ∈ K))) ∧
    create_prices [⟨"A", some "2", "1.0"⟩, ⟨"A", some "3", "2.0"⟩] ["A"] =
      [⟨"A", "1"⟩, ⟨"A", "2"⟩] := by
  refine ⟨pricesLoop_snd, pricesLoop_fst, fun R K => ?_, by decide⟩
  simp [create_prices, pricesLoop_fst, List.countP_eq_length_filter]

theorem divide_nil (n : Nat) : divide ([] : List α) n = [] := by
  rw [divide]
  simp

theorem divide_cons (lst : List α) (n : Nat) (hl : lst ≠ []) (hn : n ≠ 0) :
    divide lst n = lst.take n :: divide (lst.drop n) n := by
  rw [divide]
  simp [hl, hn]

theorem divide_spec_bounded (n : Nat) (hn : 0 < n) (m : Nat) :
    ∀ lst : List α, lst.length ≤ m →
      (divide lst n).flatten = lst ∧
      (∀ c ∈ divide lst n, c.length ≤ n) ∧
      (divide lst n).length = (lst.length + n - 1) / n ∧
      (∀ c ∈ (divide lst n).dropLast, c.length = n) := by
  induction m with
  | zero =>
    intro lst hlen
    have h0 : lst = [] := List.eq_nil_of_length_eq_zero (Nat.le_zero.mp hlen)
    subst h0
    refine ⟨by simp [divide_nil], by simp [divide_nil], ?_, by simp [divide_nil]⟩
    rw [divide_nil]
    simp only [List.length_nil]
    rw [Nat.div_eq_of_lt (by omega)]
  | succ m ih =>
    intro lst hlen
    rcases eq_or_ne lst [] with hl | hl
    · subst hl
      refine ⟨by simp [divide_nil], by simp [divide_nil], ?_, by simp [divide_nil]⟩
      rw [divide_nil]
      simp only [List.length_nil]
      rw [Nat.div_eq_of_lt (by omega)]
    · have hlpos : 0 < lst.length := List.length_pos.mpr hl
      rw [divide_cons lst n hl (Nat.pos_iff_ne_zero.mp hn)]
      have hdrop : (lst.drop n).length ≤ m := by
        simp only [List.length_drop]
        omega
      obtain ⟨ihj, ihb, ihc, ihl⟩ := ih (lst.drop n) hdrop
      refine ⟨?_, ?_, ?_, ?_⟩
      · simp only [List.flatten_cons, ihj, List.take_append_drop]
      · intro c hc
        rcases List.mem_cons.mp hc with rfl | hc
        · simp only [List.length_take]
          omega
        · exact ihb c hc
      · simp only [List.length_cons, ihc, List.length_drop]
        rcases Nat.lt_or_ge lst.length n with hcase | hcase
        · have h1 : lst.length - n = 0 := Nat.sub_eq_zero_of_le (le_of_lt hcase)
          have h2 : (0 + n - 1) / n = 0 := Nat.div_eq_of_lt (by omega)
          have h3 : (lst.length + n - 1) / n = 1 :=
            Nat.div_eq_of_lt_le (by omega) (by omega)
          rw [h1, h2, h3]
        · have h2 : lst.length + n - 1 = (lst.length - n + n - 1) + n := by omega
          rw [h2, Nat.add_div_right _ hn]
      · intro c hc
        rcases hrec : divide (lst.drop n) n with _ | ⟨d, ds⟩
        · rw [hrec] at hc
          simp at hc
        · rw [hrec] at hc
          simp only [List.dropLast_cons₂, List.mem_cons] at hc
          have hge : n ≤ lst.length := by
            by_contra hlt
            have hempty : lst.drop n = [] := by
              apply List.eq_nil_of_length_eq_zero
              simp only [List.length_drop]
              omega
            rw [hempty, divide_nil] at hrec
            exact List.noConfusion hrec
          rcases hc with rfl | hc
          · simp only [List.length_take]
            omega
          · have hdl := ihl
            rw [hrec] at hdl
            exact hdl c hc

/-- C4: for every list and every chunk size `n > 0`, the chunks
produced by `divide` concatenate back to the input, every chunk has
length at most `n`, every chunk but the last has length exactly `n`,
and the number of chunks is `⌈|S| / n⌉ = (|S| + n - 1) / n` (zero
chunks for an empty input). -/
theorem c4_divide (lst : List α) (n : Nat) (hn : 0 < n) :
    (divide lst n).flatten = lst ∧
    (∀ c ∈ divide lst n, c.length ≤ n) ∧
    (divide lst n).length = (lst.length + n - 1) / n ∧
    (∀ c ∈ (divide lst n).dropLast, c.length = n) :=
  divide_spec_bounded n hn lst.length lst le_rfl

theorem c4_divide_witness :
    (divide [1, 2, 3, 4, 5] 2).flatten = [1, 2, 3, 4, 5] ∧
    (∀ c ∈ divide [1, 2, 3, 4, 5] 2, c.length ≤ 2) ∧
    (divide [1, 2, 3, 4, 5] 2).length = ([1, 2, 3, 4, 5].length + 2 - 1) / 2 ∧
    (∀ c ∈ (divide [1, 2, 3, 4, 5] 2).dropLast, c.length = 2) :=
  c4_divide [1, 2, 3, 4, 5] 2 (by decide)

theorem ozonLoop_request_pos (pages : List OzonPage) (acc l : List String)
    (k : Nat) (h : ozonLoop pages acc = some (l, k)) : 1 ≤ k := by
  cases pages with
  | nil => exact absurd h (by simp [ozonLoop])
  | cons p rest =>
    simp only [ozonLoop] at h
    split at h
    · simp only [Option.some.injEq, Prod.mk.injEq] at h
      omega
    · split at h
      · exact absurd h (by simp)
      · simp only [Option.some.injEq, Prod.mk.injEq] at h
        omega

theorem marketLoop_request_pos (pages : List MarketPage) (l : List String)
    (k : Nat) (h : marketLoop pages = some (l, k)) : 1 ≤ k := by
  cases pages with
  | nil => exact absurd h (by simp [marketLoop])
  | cons p rest =>
    simp only [marketLoop] at h
    split at h
    · simp only [Option.some.injEq, Prod.mk.injEq] at h
      omega
    · split at h
      · exact absurd h (by simp)
      · simp only [Option.some.injEq, Prod.mk.injEq] at h
        omega

/-- C6: the catalog readers stop as soon as the stop condition holds —
on the Ozon channel when the running item count equals the reported
total, on the Yandex channel when no continuation token comes back.  A
one-page catalog (the first page already satisfies the stop condition)
costs exactly one page request, the empty catalog included; and when
the first page does not satisfy the stop condition at least two
requests are issued. -/
theorem c6_pagination :
    (∀ (p : OzonPage) (rest : List OzonPage),
      p.total = p.items.length →
      ozon_get_offer_ids (p :: rest) = some (p.items, 1)) ∧
    (∀ (p : MarketPage) (rest : List MarketPage),
      p.nextPageToken = "" →
      market_get_offer_ids (p :: rest) = some (p.entries, 1)) ∧
    ozon_get_offer_ids [⟨[], 0⟩] = some ([], 1) ∧
    (∀ (p : OzonPage) (rest : List OzonPage) (l : List String) (k : Nat),
      p.total ≠ p.items.length →
      ozon_get_offer_ids (p :: rest) = some (l, k) → 2 ≤ k) ∧
    (∀ (p : MarketPage) (rest : List MarketPage) (l : List String) (k : Nat),
      p.nextPageToken ≠ "" →
      market_get_offer_ids (p :: rest) = some (l, k) → 2 ≤ k) := by
  refine ⟨?_, ?_, by decide, ?_, ?_⟩
  · intro p rest h
    simp [ozon_get_offer_ids, ozonLoop, h]
  · intro p rest h
    simp [market_get_offer_ids, marketLoop, h]
  · intro p rest l k hne h
    simp only [ozon_get_offer_ids, ozonLoop, List.nil_append] at h
    rw [if_neg hne] at h
    rcases hrec : ozonLoop rest p.items with _ | ⟨l2, k2⟩
    · rw [hrec] at h
      exact absurd h (by simp)
    · rw [hrec] at h
      simp only [Option.some.injEq, Prod.mk.injEq] at h
      have := ozonLoop_request_pos rest p.items l2 k2 hrec
      omega
  · intro p rest l k hne h
    simp only [market_get_offer_ids, marketLoop] at h
    rw [if_neg hne] at h
    rcases hrec : marketLoop rest with _ | ⟨l2, k2⟩
    · rw [hrec] at h
      exact absurd h (by simp)
    · rw [hrec] at h
      simp only [Option.some.injEq, Prod.mk.injEq] at h
      have := marketLoop_request_pos rest l2 k2 hrec
      omega

theorem c6_pagination_witness :
    ozon_get_offer_ids [⟨["X"], 1⟩] = some (["X"], 1) ∧
    market_get_offer_ids [⟨["Y"], ""⟩] = some (["Y"], 1) :=
  ⟨c6_pagination.1 ⟨["X"], 1⟩ [] rfl, c6_pagination.2.1 ⟨["Y"], ""⟩ [] rfl⟩

theorem ozonLoop_flatten (pages : List OzonPage) :
    ∀ (acc l : List String) (k : Nat), ozonLoop pages acc = some (l, k) →
      l = acc ++ ((pages.take k).map OzonPage.items).flatten := by
  induction pages with
  | nil =>
    intro acc l k h
    exact absurd h (by simp [ozonLoop])
  | cons p rest ih =>
    intro acc l k h
    simp only [ozonLoop] at h
    split at h
    · simp only [Option.some.injEq, Prod.mk.injEq] at h
      obtain ⟨hl, hk⟩ := h
      subst hl
      subst hk
      simp
    · rcases hrec : ozonLoop rest (acc ++ p.items) with _ | ⟨l2, k2⟩
      · rw [hrec] at h
        exact absurd h (by simp)
      · rw [hrec] at h
        simp only [Option.some.injEq, Prod.mk.injEq] at h
        obtain ⟨hl, hk⟩ := h
        subst hl
        subst hk
        have := ih (acc ++ p.items) l2 k2 hrec
        simpa [List.append_assoc] using this

theorem marketLoop_flatten (pages : List MarketPage) :
    ∀ (l : List String) (k : Nat), marketLoop pages = some (l, k) →
      l = ((pages.take k).map MarketPage.entries).flatten := by
  induction pages with
  | nil =>
    intro l k h
    exact absurd h (by simp [marketLoop])
  | cons p rest ih =>
    intro l k h
    simp only [marketLoop] at h
    split at h
    · simp only [Option.some.injEq, Prod.mk.injEq] at h
      obtain ⟨hl, hk⟩ := h
      subst hl
      subst hk
      simp
    · rcases hrec : marketLoop rest with _ | ⟨l2, k2⟩
      · rw [hrec] at h
        exact absurd h (by simp)
      · rw [hrec] at h
        simp only [Option.some.injEq, Prod.mk.injEq] at h
        obtain ⟨hl, hk⟩ := h
        subst hl
        subst hk
        simp [ih l2 k2 hrec]

/-- C9, counterexample: the catalog readers do not deduplicate.  A
single Ozon page whose two items carry the same identifier is returned
as a list with that identifier twice. -/
theorem c9_counterexample :
    ozon_get_offer_ids [⟨["X", "X"], 2⟩] = some (["X", "X"], 1) ∧
    ¬ (["X", "X"] : List String).Nodup := by
  exact ⟨by decide, by decide⟩

/-- C9, amended: the identifier list returned by the catalog reader is
complete and order-preserving — exactly the concatenation of the
identifiers of the fetched pages, one entry per fetched item — but it
is not deduplicated: an identifier occurring on several fetched items
occurs the same number of times in the result. -/
theorem c9_amended :
    (∀ (pages : List OzonPage) (l : List String) (k : Nat),
      ozon_get_offer_ids pages = some (l, k) →
      l = ((pages.take k).map OzonPage.items).flatten) ∧
    (∀ (pages : List MarketPage) (l : List String) (k : Nat),
      market_get_offer_ids pages = some (l, k) →
      l = ((pages.take k).map MarketPage.entries).flatten) := by
  constructor
  · intro pages l k h
    simpa using ozonLoop_flatten pages [] l k h
  · intro pages l k h
    exact marketLoop_flatten pages l k h

theorem c9_amended_witness :
    (["X", "X"] : List String) =
      ((([⟨["X", "X"], 2⟩] : List OzonPage).take 1).map OzonPage.items).flatten ∧
    (["Y"] : List String) =
      ((([⟨["Y"], ""⟩] : List MarketPage).take 1).map MarketPage.entries).flatten :=
  ⟨c9_amended.1 [⟨["X", "X"], 2⟩] ["X", "X"] 1 (by decide),
   c9_amended.2 [⟨["Y"], ""⟩] ["Y"] 1 (by decide)⟩

theorem stocksLoop_nonneg (R : List Watch) :
    ∀ (K : List String) (m : List Stock) (rem : List String),
      (∀ w ∈ R, 0 ≤ (bucketQty w).getD 0) →
      stocksLoop R K = some (m, rem) →
      ∀ r ∈ m, 0 ≤ r.stock := by
  induction R with
  | nil =>
    intro K m rem h0 h r hr
    simp only [stocksLoop, Option.some.injEq, Prod.mk.injEq] at h
    obtain ⟨hm, _⟩ := h
    subst hm
    exact absurd hr (by simp)
  | cons w ws ih =>
    intro K m rem h0 h r hr
    simp only [stocksLoop] at h
    split at h
    · rcases hbq : bucketQty w with _ | q
      · rw [hbq] at h
        exact absurd h (by simp)
      · rw [hbq] at h
        rcases hrec : stocksLoop ws (K.erase w.kod) with _ | ⟨m2, rem2⟩
        · rw [hrec] at h
          exact absurd h (by simp)
        · rw [hrec] at h
          simp only [Option.some.injEq, Prod.mk.injEq] at h
          obtain ⟨hm, _⟩ := h
          subst hm
          rcases List.mem_cons.mp hr with rfl | hr
          · have hq := h0 w (by simp)
            rw [hbq] at hq
            simpa using hq
          · exact ih (K.erase w.kod) m2 rem2
              (fun w2 hw2 => h0 w2 (by simp [hw2])) hrec r hr
    · exact ih K m rem (fun w2 hw2 => h0 w2 (by simp [hw2])) h r hr

/-- C8, counterexample: reconciliation succeeds on a record whose
quantity descriptor parses to a negative integer and emits a stock
update with a negative quantity, so the claimed unconditional
`quantity ≥ 0` invariant fails. -/
theorem c8_counterexample :
    create_stocks [⟨"A", some "-1", ""⟩] ["A"] = some [⟨"A", -1⟩] ∧
    ¬ (0 ≤ (-1 : Int)) := by
  exact ⟨by decide, by decide⟩

/-- C8, amended: every stock update carries a quantity `≥ 0` provided
no inventory record buckets to a negative quantity (the two sentinel
branches give `100` and `0`, the default pass gives `0`, so only a
descriptor parsing to a negative integer can break the bound). -/
theorem c8_amended (R : List Watch) (K : List String) (S : List Stock)
    (h0 : ∀ w ∈ R, 0 ≤ (bucketQty w).getD 0)
    (h : create_stocks R K = some S) :
    ∀ r ∈ S, 0 ≤ r.stock := by
  simp only [create_stocks] at h
  rcases hrec : stocksLoop R K with _ | ⟨m, rem⟩
  · rw [hrec] at h
    exact absurd h (by simp)
  · rw [hrec] at h
    simp only [Option.some.injEq] at h
    subst h
    intro r hr
    rcases List.mem_append.mp hr with hr | hr
    · exact stocksLoop_nonneg R K m rem h0 hrec r hr
    · obtain ⟨i, hi, rfl⟩ := List.mem_map.mp hr
      simp

theorem c8_amended_witness : 0 ≤ ((⟨"A", 100⟩ : Stock)).stock :=
  c8_amended [⟨"A", some ">10", ""⟩] ["A"] [⟨"A", 100⟩] (by decide) (by decide)
    ⟨"A", 100⟩ (by decide)

theorem stocksLoop_none_iff (R : List Watch) :
    ∀ K : List String, K.Nodup →
      (stocksLoop R K = none ↔
        ∃ k ∈ K, ∃ w, R.find? (fun w2 => w2.kod == k) = some w ∧
          bucketQty w = none) := by
  induction R with
  | nil =>
    intro K hK
    simp [stocksLoop]
  | cons w ws ih =>
    intro K hK
    by_cases hmem : w.kod ∈ K
    · rcases hbq : bucketQty w with _ | q
      · constructor
        · intro _
          exact ⟨w.kod, hmem, w,
            List.find?_cons_of_pos ws (by simp), hbq⟩
        · intro _
          simp [stocksLoop, hmem, hbq]
      · have hK2 : (K.erase w.kod).Nodup := hK.erase w.kod
        have main : stocksLoop (w :: ws) K = none ↔
            stocksLoop ws (K.erase w.kod) = none := by
          simp only [stocksLoop, if_pos hmem, hbq]
          rcases hrec : stocksLoop ws (K.erase w.kod) with _ | ⟨m, rem⟩ <;> simp
        rw [main, ih (K.erase w.kod) hK2]
        constructor
        · rintro ⟨k, hk2, w2, hfind, hbad⟩
          have hsplit := hK.mem_erase_iff.mp hk2
          refine ⟨k, hsplit.2, w2, ?_, hbad⟩
          rw [List.find?_cons_of_neg ws (by simp [Ne.symm hsplit.1])]
          exact hfind
        · rintro ⟨k, hk, w2, hfind, hbad⟩
          have hne : k ≠ w.kod := by
            rintro rfl
            rw [List.find?_cons_of_pos ws (by simp)] at hfind
            rw [← Option.some.injEq w w2 |>.mp hfind] at hbad
            rw [hbq] at hbad
            exact Option.noConfusion hbad
          refine ⟨k, hK.mem_erase_iff.mpr ⟨hne, hk⟩, w2, ?_, hbad⟩
          rw [List.find?_cons_of_neg ws (by simp [Ne.symm hne])] at hfind
          exact hfind
    · have main : stocksLoop (w :: ws) K = none ↔ stocksLoop ws K = none := by
        simp [stocksLoop, hmem]
      rw [main, ih K hK]
      constructor
      · rintro ⟨k, hk, w2, hfind, hbad⟩
        have hne : w.kod ≠ k := fun he => hmem (he ▸ hk)
        refine ⟨k, hk, w2, ?_, hbad⟩
        rw [List.find?_cons_of_neg ws (by simp [hne])]
        exact hfind
      · rintro ⟨k, hk, w2, hfind, hbad⟩
        have hne : w.kod ≠ k := fun he => hmem (he ▸ hk)
        rw [List.find?_cons_of_neg ws (by simp [hne])] at hfind
        exact ⟨k, hk, w2, hfind, hbad⟩

/-- C7, counterexample: an inventory record whose identifier is in the
known-identifier set and whose descriptor is unparseable does not
necessarily make reconciliation fail — a preceding record with the
same identifier consumes the identifier first, so the second record
never matches and `create_stocks` succeeds. -/
theorem c7_counterexample :
    "A" ∈ (["A"] : List String) ∧
    bucketQty ⟨"A", some "xyz", ""⟩ = none ∧
    create_stocks [⟨"A", some ">10", ""⟩, ⟨"A", some "xyz", ""⟩] ["A"] =
      some [⟨"A", 100⟩] :=
  ⟨by decide, by decide, by decide⟩

/-- C7, amended: for a duplicate-free known-identifier set,
reconciliation fails if and only if for some identifier in the set the
FIRST inventory record bearing that identifier has a quantity
descriptor that is neither `">10"` nor `"1"` nor a parseable integer
(the absent descriptor included); in particular records whose
identifier is outside the set can never trigger the error, the error
aborts the whole run (`none`: no updates at all), and later records of
an already-consumed identifier cannot trigger it either. -/
theorem c7_amended (R : List Watch) (K : List String) (hK : K.Nodup) :
    create_stocks R K = none ↔
      ∃ k ∈ K, ∃ w, R.find? (fun w2 => w2.kod == k) = some w ∧
        bucketQty w = none := by
  have h1 : create_stocks R K = none ↔ stocksLoop R K = none := by
    simp only [create_stocks]
    rcases stocksLoop R K with _ | ⟨m, rem⟩ <;> simp
  rw [h1]
  exact stocksLoop_none_iff R K hK

theorem c7_amended_witness :
    create_stocks [⟨"A", some "xy", ""⟩] ["A"] = none :=
  (c7_amended [⟨"A", some "xy", ""⟩] ["A"] (by decide)).mpr
    ⟨"A", by decide, ⟨"A", some "xy", ""⟩, by decide, by decide⟩

theorem expectedQty_cons_ne (w : Watch) (ws : List Watch) (k : String)
    (h : w.kod ≠ k) : expectedQty (w :: ws) k = expectedQty ws k := by
  have hrw := @List.find?_cons_of_neg Watch (fun w2 : Watch => w2.kod == k) w ws
    (by simp [h])
  simp only [expectedQty, hrw]

theorem filter_map_zero (k : String) :
    ∀ K : List String, K.Nodup → k ∈ K →
      (K.map (fun i => (⟨i, 0⟩ : Stock))).filter
        (fun r => r.offer_id == k) = [⟨k, 0⟩] := by
  intro K
  induction K with
  | nil =>
    intro _ hk
    exact absurd hk (by simp)
  | cons a K ih =>
    intro hK hk
    simp only [List.map_cons, List.filter_cons]
    by_cases hak : a = k
    · subst hak
      have hnot : a ∉ K := (List.nodup_cons.mp hK).1
      have hfil : (K.map (fun i => (⟨i, 0⟩ : Stock))).filter
          (fun r => r.offer_id == a) = [] := by
        rw [List.filter_eq_nil_iff]
        intro r hr
        obtain ⟨i, hi, rfl⟩ := List.mem_map.mp hr
        simp only [beq_iff_eq]
        intro hia
        exact hnot (hia ▸ hi)
      rw [if_pos (by simp), hfil]
    · have hk2 : k ∈ K := by
        rcases List.mem_cons.mp hk with h | h
        · exact absurd h.symm hak
        · exact h
      rw [if_neg (by simp [hak]), ih (List.nodup_cons.mp hK).2 hk2]

/-- C1: for a duplicate-free known-identifier set `K` and any
inventory record sequence on which reconciliation succeeds,
`create_stocks` emits exactly `|K|` records, every emitted record's
identifier is in `K`, and each identifier of `K` appears in exactly
one record — with the bucketed quantity of the first matching
inventory record when one exists and quantity `0` otherwise
(two-pass consume-then-default). -/
theorem c1_stocks_complete (R : List Watch) :
    ∀ (K : List String) (S : List Stock), K.Nodup →
      create_stocks R K = some S →
      S.length = K.length ∧
      (∀ r ∈ S, r.offer_id ∈ K) ∧
      (∀ k ∈ K, ∃ q, expectedQty R k = some q ∧
        S.filter (fun r => r.offer_id == k) = [⟨k, q⟩]) := by
  induction R with
  | nil =>
    intro K S hK h
    simp only [create_stocks, stocksLoop, Option.some.injEq] at h
    have hS : S = K.map (fun i => (⟨i, 0⟩ : Stock)) := by
      simpa using h.symm
    subst hS
    refine ⟨by simp, ?_, ?_⟩
    · intro r hr
      obtain ⟨i, hi, rfl⟩ := List.mem_map.mp hr
      exact hi
    · intro k hk
      exact ⟨0, rfl, filter_map_zero k K hK hk⟩
  | cons w ws ih =>
    intro K S hK h
    simp only [create_stocks, stocksLoop] at h
    by_cases hmem : w.kod ∈ K
    · rw [if_pos hmem] at h
      rcases hbq : bucketQty w with _ | q
      · rw [hbq] at h
        exact absurd h (by simp)
      · rw [hbq] at h
        rcases hrec : stocksLoop ws (K.erase w.kod) with _ | ⟨m, rem⟩
        · rw [hrec] at h
          exact absurd h (by simp)
        · rw [hrec] at h
          simp only [Option.some.injEq] at h
          subst h
          have hcs : create_stocks ws (K.erase w.kod) =
              some (m ++ rem.map (fun i => (⟨i, 0⟩ : Stock))) := by
            simp only [create_stocks]
            rw [hrec]
          have hK2 : (K.erase w.kod).Nodup := hK.erase w.kod
          obtain ⟨ihlen, ihmem, ihfil⟩ :=
            ih (K.erase w.kod) _ hK2 hcs
          have hKpos : 0 < K.length := by
            rcases K with _ | ⟨a, K0⟩
            · exact absurd hmem (by simp)
            · simp
          have hlen1 := ihlen
          rw [List.length_erase_of_mem hmem] at hlen1
          refine ⟨?_, ?_, ?_⟩
          · simp only [List.cons_append, List.length_cons]
            omega
          · intro r hr
            simp only [List.cons_append, List.mem_cons] at hr
            rcases hr with rfl | hr
            · exact hmem
            · exact List.mem_of_mem_erase (ihmem r hr)
          · intro k hk
            by_cases hkw : k = w.kod
            · subst hkw
              have he : expectedQty (w :: ws) w.kod = some q := by
                have hrw := @List.find?_cons_of_pos Watch
                  (fun w2 : Watch => w2.kod == w.kod) w ws (by simp)
                simp only [expectedQty, hrw]
                exact hbq
              have hempty : (m ++ rem.map (fun i => (⟨i, 0⟩ : Stock))).filter
                  (fun r => r.offer_id == w.kod) = [] := by
                rw [List.filter_eq_nil_iff]
                intro r hr
                simp only [beq_iff_eq]
                intro heq
                have hmem2 := ihmem r hr
                rw [heq] at hmem2
                exact hK.not_mem_erase hmem2
              refine ⟨q, he, ?_⟩
              simp only [List.cons_append, List.filter_cons]
              rw [if_pos (by simp), hempty]
            · have hk2 : k ∈ K.erase w.kod := hK.mem_erase_iff.mpr ⟨hkw, hk⟩
              obtain ⟨q2, hq2, hfil2⟩ := ihfil k hk2
              have hstep := expectedQty_cons_ne w ws k (Ne.symm hkw)
              refine ⟨q2, by rw [hstep]; exact hq2, ?_⟩
              simp only [List.cons_append, List.filter_cons]
              rw [if_neg (by simp [Ne.symm hkw]), hfil2]
    · rw [if_neg hmem] at h
      have hcs : create_stocks ws K = some S := by
        simp only [create_stocks]
        exact h
      obtain ⟨ihlen, ihmem, ihfil⟩ := ih K S hK hcs
      refine ⟨ihlen, ihmem, ?_⟩
      intro k hk
      obtain ⟨q2, hq2, hfil2⟩ := ihfil k hk
      have hne : w.kod ≠ k := fun he => hmem (he ▸ hk)
      have hstep := expectedQty_cons_ne w ws k hne
      exact ⟨q2, by rw [hstep]; exact hq2, hfil2⟩

theorem c1_stocks_complete_witness :
    ([⟨"A", 3⟩, ⟨"B", 0⟩] : List Stock).length =
      (["A", "B"] : List String).length ∧
    (∀ r ∈ ([⟨"A", 3⟩, ⟨"B", 0⟩] : List Stock),
      r.offer_id ∈ (["A", "B"] : List String)) ∧
    (∀ k ∈ (["A", "B"] : List String), ∃ q,
      expectedQty [⟨"A", some "3", ""⟩] k = some q ∧
      ([⟨"A", 3⟩, ⟨"B", 0⟩] : List Stock).filter
        (fun r => r.offer_id == k) = [⟨k, q⟩]) :=
  c1_stocks_complete [⟨"A", some "3", ""⟩] ["A", "B"] [⟨"A", 3⟩, ⟨"B", 0⟩]
    (by decide) (by decide)
